import Mathlib

/-!
Verification of the chain-and-pool engine of a Bitcoin-family node
(`lib/schema/block.js`, the `Node` prototype, and `lib/transactionstore.js`).

Buffers are modelled as `List Nat` of byte values, hash keys (the base64
strings the JavaScript uses as object keys) as `Nat`, JavaScript objects
used as dictionaries as association lists `List (Nat × _)` in insertion
order, and thrown exceptions as `Except String _`.  Asynchronous
verification completes immediately after the synchronous part of `add`
(the engine is single-threaded and nothing else runs in the scenarios
considered); a fuel parameter bounds the orphan re-feed recursion.
-/

set_option maxRecDepth 10000

/-- Lookup in a JavaScript-object-style association list. -/
def alookup {α : Type} : List (Nat × α) → Nat → Option α
  | [], _ => none
  | (k, v) :: rest, key => if k = key then some v else alookup rest key

/-- JavaScript object assignment: replace the value at the key if present
(keeping its position), else append the new entry. -/
def aset {α : Type} : List (Nat × α) → Nat → α → List (Nat × α)
  | [], key, v => [(key, v)]
  | (k, w) :: rest, key, v =>
      if k = key then (key, v) :: rest else (k, w) :: aset rest key v

/-- JavaScript `delete obj[key]`. -/
def aerase {α : Type} : List (Nat × α) → Nat → List (Nat × α)
  | [], _ => []
  | (k, w) :: rest, key =>
      if k = key then aerase rest key else (k, w) :: aerase rest key

theorem alookup_aset_self {α : Type} (l : List (Nat × α)) (k : Nat) (v : α) :
    alookup (aset l k v) k = some v := by
  induction l with
  | nil => simp [aset, alookup]
  | cons p rest ih =>
      obtain ⟨k', w⟩ := p
      by_cases h : k' = k <;> simp [aset, alookup, h, ih]

theorem alookup_aset_ne {α : Type} (l : List (Nat × α)) (k k' : Nat) (v : α)
    (h : k' ≠ k) : alookup (aset l k v) k' = alookup l k' := by
  have hne : k ≠ k' := Ne.symm h
  induction l with
  | nil => simp [aset, alookup, hne]
  | cons p rest ih =>
      obtain ⟨k0, w⟩ := p
      by_cases h0 : k0 = k
      · subst h0
        simp [aset, alookup, hne]
      · simp [aset, alookup, h0, ih]

theorem alookup_aerase_self {α : Type} (l : List (Nat × α)) (k : Nat) :
    alookup (aerase l k) k = none := by
  induction l with
  | nil => simp [aerase, alookup]
  | cons p rest ih =>
      obtain ⟨k0, w⟩ := p
      by_cases h0 : k0 = k <;> simp [aerase, alookup, h0, ih]

theorem alookup_aerase_ne {α : Type} (l : List (Nat × α)) (k k' : Nat)
    (h : k' ≠ k) : alookup (aerase l k) k' = alookup l k' := by
  induction l with
  | nil => simp [aerase, alookup]
  | cons p rest ih =>
      obtain ⟨k0, w⟩ := p
      by_cases h0 : k0 = k
      · subst h0
        simp [aerase, alookup, Ne.symm h, ih]
      · simp [aerase, alookup, h0, ih]

/-! ## Byte buffers, endianness and `Buffer.compare` -/

/-- Value of a buffer read as an unsigned little-endian integer. -/
def leNat : List Nat → Nat
  | [] => 0
  | b :: bs => b + 256 * leNat bs

/-- Value of a buffer read as an unsigned big-endian integer. -/
def beNat : List Nat → Nat
  | [] => 0
  | b :: bs => b * 256 ^ bs.length + beNat bs

/-- `Buffer.compare`: lexicographic byte-wise comparison, a strict prefix
comparing as smaller. -/
def bufCompare : List Nat → List Nat → Ordering
  | [], [] => .eq
  | [], _ :: _ => .lt
  | _ :: _, [] => .gt
  | a :: as, b :: bs =>
      if a < b then .lt else if b < a then .gt else bufCompare as bs

/-- Big-endian encoding of `n` into exactly `w` bytes (the low `8·w` bits). -/
def bytesBE (w : Nat) (n : Nat) : List Nat :=
  (List.range w).map (fun i => n / 256 ^ (w - 1 - i) % 256)

theorem beNat_append_singleton (l : List Nat) (y : Nat) :
    beNat (l ++ [y]) = 256 * beNat l + y := by
  induction l with
  | nil => simp [beNat]
  | cons b bs ih => simp [beNat, ih, pow_succ]; ring

theorem beNat_reverse (l : List Nat) : beNat l.reverse = leNat l := by
  induction l with
  | nil => simp [beNat, leNat]
  | cons b bs ih =>
      simp only [List.reverse_cons, beNat_append_singleton, ih, leNat]
      omega

theorem beNat_lt (l : List Nat) (hb : ∀ x ∈ l, x < 256) :
    beNat l < 256 ^ l.length := by
  induction l with
  | nil => simp [beNat]
  | cons b bs ih =>
      have hbb : b < 256 := hb b (List.mem_cons_self b bs)
      have htail : beNat bs < 256 ^ bs.length :=
        ih (fun x hx => hb x (List.mem_cons_of_mem b hx))
      have : b * 256 ^ bs.length + beNat bs < (b + 1) * 256 ^ bs.length := by
        calc b * 256 ^ bs.length + beNat bs
            < b * 256 ^ bs.length + 256 ^ bs.length := by omega
          _ = (b + 1) * 256 ^ bs.length := by ring
      calc beNat (b :: bs) = b * 256 ^ bs.length + beNat bs := rfl
        _ < (b + 1) * 256 ^ bs.length := this
        _ ≤ 256 * 256 ^ bs.length := by
            have : b + 1 ≤ 256 := hbb
            exact Nat.mul_le_mul_right _ this
        _ = 256 ^ (bs.length + 1) := by ring
        _ = 256 ^ (b :: bs).length := by simp

/-- On equal-length buffers of genuine bytes, `Buffer.compare` answers `gt`
exactly when the big-endian numeric value is larger. -/
theorem bufCompare_gt_iff (a b : List Nat) (hlen : a.length = b.length)
    (ha : ∀ x ∈ a, x < 256) (hb : ∀ x ∈ b, x < 256) :
    bufCompare a b = .gt ↔ beNat b < beNat a := by
  induction a generalizing b with
  | nil =>
      cases b with
      | nil => simp [bufCompare, beNat]
      | cons y ys => simp at hlen
  | cons x xs ih =>
      cases b with
      | nil => simp at hlen
      | cons y ys =>
          have hlen' : xs.length = ys.length := by simpa using hlen
          have hx : x < 256 := ha x (List.mem_cons_self x xs)
          have hy : y < 256 := hb y (List.mem_cons_self y ys)
          have hxs : ∀ z ∈ xs, z < 256 :=
            fun z hz => ha z (List.mem_cons_of_mem x hz)
          have hys : ∀ z ∈ ys, z < 256 :=
            fun z hz => hb z (List.mem_cons_of_mem y hz)
          have hxsv : beNat xs < 256 ^ xs.length := beNat_lt xs hxs
          have hysv : beNat ys < 256 ^ ys.length := beNat_lt ys hys
          by_cases hlt : x < y
          · have : beNat (x :: xs) < beNat (y :: ys) := by
              calc beNat (x :: xs) = x * 256 ^ xs.length + beNat xs := rfl
                _ < (x + 1) * 256 ^ xs.length := by
                    have := hxsv; ring_nf; omega
                _ ≤ y * 256 ^ xs.length := by
                    exact Nat.mul_le_mul_right _ (by omega)
                _ ≤ y * 256 ^ ys.length + beNat ys := by
                    rw [hlen']; omega
                _ = beNat (y :: ys) := rfl
            simp [bufCompare, hlt]
            omega
          · by_cases hgt : y < x
            · have : beNat (y :: ys) < beNat (x :: xs) := by
                calc beNat (y :: ys) = y * 256 ^ ys.length + beNat ys := rfl
                  _ < (y + 1) * 256 ^ ys.length := by
                      have := hysv; ring_nf; omega
                  _ ≤ x * 256 ^ ys.length := by
                      exact Nat.mul_le_mul_right _ (by omega)
                  _ ≤ x * 256 ^ xs.length + beNat xs := by
                      rw [hlen']; omega
                  _ = beNat (x :: xs) := rfl
              simp [bufCompare, hlt, hgt]
              omega
            · have hxy : x = y := by omega
              subst hxy
              have : beNat (x :: xs) = x * 256 ^ xs.length + beNat xs := rfl
              simp only [bufCompare, if_neg hlt, if_neg hgt]
              rw [ih ys hlen' hxs hys]
              constructor
              · intro h
                simp only [beNat, hlen']
                omega
              · intro h
                simp only [beNat, hlen'] at h
                omega

theorem bytesBE_succ (w n : Nat) :
    bytesBE (w + 1) n = (n / 256 ^ w % 256) :: bytesBE w n := by
  simp only [bytesBE, List.range_succ_eq_map, List.map_cons, List.map_map]
  congr 1
  apply List.map_congr_left
  intro i hi
  simp only [Function.comp]
  have h : w + 1 - 1 - Nat.succ i = w - 1 - i := by omega
  rw [h]

theorem bytesBE_length (w n : Nat) : (bytesBE w n).length = w := by
  simp [bytesBE]

theorem bytesBE_bytes (w n : Nat) : ∀ x ∈ bytesBE w n, x < 256 := by
  intro x hx
  simp only [bytesBE, List.mem_map] at hx
  obtain ⟨i, _, rfl⟩ := hx
  exact Nat.mod_lt _ (by norm_num)

theorem beNat_bytesBE (w n : Nat) : beNat (bytesBE w n) = n % 256 ^ w := by
  induction w with
  | zero => simp [bytesBE, beNat, Nat.mod_one]
  | succ w ih =>
      rw [bytesBE_succ]
      have : beNat ((n / 256 ^ w % 256) :: bytesBE w n)
          = (n / 256 ^ w % 256) * 256 ^ w + beNat (bytesBE w n) := by
        simp [beNat, bytesBE_length]
      rw [this, ih]
      have h256 : (256 : Nat) ^ (w + 1) = 256 ^ w * 256 := by ring
      rw [h256, Nat.mod_mul]
      ring

/-! ## Block entity (`lib/schema/block.js`) -/

/-- The block record.  Header fields as in the schema; `hash` is the cached
double-SHA-256 of the header, stored in wire (little-endian) byte order.
`merkle_root` is optional to model the JavaScript null check. -/
structure Block where
  hash : List Nat := []
  prev_hash : List Nat := []
  merkle_root : Option (List Nat) := none
  timestamp : Nat := 0
  bits : Nat := 0
  nonce : Nat := 0
  version : Nat := 1
  height : Int := -1
  size : Nat := 0
  active : Bool := false
  chainWork : List Nat := []
deriving DecidableEq

/-- Modelled from the spec: `Util.decodeDiffBits` (the `Util` module is not
part of the sources given): the compact difficulty encoding decodes to
`target = mantissa * 256 ^ (exponent - 3)` where the exponent is the top
byte and the mantissa the low 24 bits. -/
def decodeDiffBitsNat (bits : Nat) : Nat :=
  (bits % 2 ^ 24) * 256 ^ (bits / 2 ^ 24 - 3)

/-- Modelled from the spec: `Util.decodeDiffBits` returns the target as a
32-byte big-endian buffer. -/
def decodeDiffBits (bits : Nat) : List Nat :=
  bytesBE 32 (decodeDiffBitsNat bits)

/-- `Block.checkProofOfWork`.  The source reverses `this.hash` in place,
compares it with the decoded target and throws when it exceeds it; on the
success path it reverses the hash back.  The returned block carries the
final state of the mutated `hash` field. -/
def checkProofOfWork (b : Block) : Except String Bool × Block :=
  let target := decodeDiffBits b.bits
  let reversed := b.hash.reverse
  if bufCompare reversed target = .gt then
    (.error ("Difficulty target not met"), { b with hash := reversed })
  else
    (.ok true, { b with hash := reversed.reverse })

/-- A transaction as seen by the block-level merkle code: only its cached
hash is consulted (`tx.getHash()`). -/
structure BlkTx where
  hash : List Nat
deriving DecidableEq

/-- The all-zero hash `Util.NULL_HASH`. -/
def nullHash : List Nat := List.replicate 32 0

/-- `Block.calcMerkleRoot` as written in the source.  The argument is
`Option` because `checkMerkleRoot` invokes it with no argument (JavaScript
`undefined`), which makes `txs.length` throw a `TypeError`.  With an empty
list it returns `NULL_HASH`; with a single transaction the level loop does
not run and the leaf is returned; with two or more transactions the first
inner iteration calls `tree.add`, which does not exist on JavaScript
arrays, and a `TypeError` is thrown. -/
def calcMerkleRoot (txs : Option (List BlkTx)) : Except String (List Nat) :=
  match txs with
  | none => .error ("TypeError: undefined has no length")
  | some [] => .ok nullHash
  | some [t] => .ok t.hash
  | some (_ :: _ :: _) => .error ("TypeError: tree.add is not a function")

/-- `Block.checkMerkleRoot`.  Throws when `merkle_root` is unset; otherwise
calls `this.calcMerkleRoot()` — with no argument, ignoring its own `txs`
parameter — and then throws when the computed root EQUALS the stored root
(`compare == 0`), returning `true` otherwise. -/
def checkMerkleRoot (b : Block) (txs : List BlkTx) : Except String Bool :=
  match b.merkle_root with
  | none => .error ("No merkle root")
  | some mr =>
      match calcMerkleRoot none with
      | .error e => .error e
      | .ok root =>
          if bufCompare root mr = .eq then .error ("Merkle root incorrect")
          else .ok true

/-- Modelled from the spec: one level of the canonical merkle tree over a
list of hashes — pairwise combination by the double-SHA-256 combiner `H`,
the last element being paired with itself when the level has odd length. -/
def merkleLevel (H : List Nat → List Nat → List Nat) :
    List (List Nat) → List (List Nat)
  | [] => []
  | [a] => [H a a]
  | a :: b :: rest => H a b :: merkleLevel H rest

theorem merkleLevel_length (H : List Nat → List Nat → List Nat)
    (l : List (List Nat)) : (merkleLevel H l).length = (l.length + 1) / 2 := by
  induction l using merkleLevel.induct H with
  | case1 => simp [merkleLevel]
  | case2 a => simp [merkleLevel]
  | case3 a b rest ih => simp [merkleLevel, ih]; omega

/-- Modelled from the spec: the canonical merkle root over transaction
hashes — repeat `merkleLevel` until one hash remains; the root over a
single leaf is the leaf itself and over no leaves the null hash. -/
def canonicalMerkleRoot (H : List Nat → List Nat → List Nat) :
    List (List Nat) → List Nat
  | [] => nullHash
  | [a] => a
  | a :: b :: rest => canonicalMerkleRoot H (merkleLevel H (a :: b :: rest))
termination_by l => l.length
decreasing_by
  simp [merkleLevel_length]
  omega

/-! ## TransactionStore (`lib/transactionstore.js`) -/

/-- A transaction input: the outpoint it spends.  Scripts and sequence
numbers play no role in the store logic modelled here. -/
structure TxIn where
  prevHash : Nat
  prevIndex : Nat
deriving DecidableEq

/-- A mempool transaction.  `hash` stands for the base64 key
`tx.getHash().toString(base64)`.  `standard` is the oracle for
`tx.isStandard()` and `scriptOk` the oracle for per-input script
verification, both implemented in `transaction.js`, which is not among the
sources given; `accounts` plays `tx.getAffectedAccounts()`. -/
structure Tx where
  hash : Nat
  ins : List TxIn := []
  standard : Bool := true
  scriptOk : Bool := true
  accounts : List Nat := []
deriving DecidableEq

/-- Modelled from the spec: `Transaction.isCoinBase` (absent from the given
sources) — a coinbase is a single input with a null outpoint; the null hash
key is modelled as `0`. -/
def Tx.isCoinBase (tx : Tx) : Bool :=
  match tx.ins with
  | [i] => i.prevHash == 0
  | _ => false

/-- An element of a verifying entry's callback queue: either a caller's
callback (`none` models a pushed value that is not a function, which the
source never invokes thanks to its `typeof` guards) or the closure that
`remove` pushes to delete the entry once verification succeeds. -/
inductive Waiter where
  | cbW (c : Option Nat)
  | removeW
deriving DecidableEq

/-- A value of the `txIndex` map: an array of callbacks while the
transaction is being verified, or the transaction itself once accepted. -/
inductive PoolEntry where
  | verifying (queue : List Waiter)
  | accepted (tx : Tx)
deriving DecidableEq

/-- Arguments with which a stored callback is invoked. -/
inductive CallArg where
  | success (tx : Tx)
  | missingSrc (missing : Nat) (tx : Tx)
  | failed (tx : Tx)
  | syncErr (msg : String)
  | got (tx : Option Tx)
deriving DecidableEq

/-- Events emitted by the store. -/
inductive Ev where
  | txNotify (tx : Tx)
  | txNotifyAddr (addr : Nat) (tx : Tx)
  | txCancel (tx : Tx) (txHash : Nat)
  | txCancelAddr (addr : Nat) (tx : Tx)
deriving DecidableEq

/-- The TransactionStore state: the maps of the constructor, plus an
observation log of emitted events and of callback invocations.
`liveAccounting` is `node.cfg.feature.liveAccounting`. -/
structure TxStore where
  liveAccounting : Bool := false
  txIndex : List (Nat × PoolEntry) := []
  txIndexByAcc : List (Nat × List Nat) := []
  orphanTxIndex : List (Nat × Tx) := []
  orphanTxByPrev : List (Nat × List Tx) := []
  events : List Ev := []
  calls : List (Nat × CallArg) := []
deriving DecidableEq

/-- `TransactionStore.prototype.remove`.  A verifying entry gets the
deferred-removal closure appended to its queue; an accepted entry is
deleted with `txCancel` (and per-address cancels when live accounting is
on); an unknown hash falls through with no effect. -/
def removeStore (s : TxStore) (h : Nat) : TxStore :=
  match alookup s.txIndex h with
  | some (.verifying q) =>
      let entry := PoolEntry.verifying (q ++ [Waiter.removeW])
      { s with txIndex := aset s.txIndex h entry }
  | some (.accepted tx) =>
      let evs := s.events ++ [Ev.txCancel tx h]
      let s1 := { s with txIndex := aerase s.txIndex h, events := evs }
      if s1.liveAccounting then
        let addrEvs := tx.accounts.map (fun a => Ev.txCancelAddr a tx)
        { s1 with events := s1.events ++ addrEvs }
      else s1
  | none => s

/-- `TransactionStore.prototype.get`.  Returns `null` (here `none`) while
verifying — enqueueing the callback — the transaction when accepted and
`undefined` (also `none`) when unknown; a present callback is invoked
synchronously in the latter two cases. -/
def getStore (s : TxStore) (h : Nat) (cb : Option Nat) : TxStore × Option Tx :=
  match alookup s.txIndex h with
  | some (.verifying q) =>
      (match cb with
       | some c =>
           let entry := PoolEntry.verifying (q ++ [Waiter.cbW (some c)])
           { s with txIndex := aset s.txIndex h entry }
       | none => s,
       none)
  | some (.accepted tx) =>
      (match cb with
       | some c => { s with calls := s.calls ++ [(c, CallArg.got (some tx))] }
       | none => s,
       some tx)
  | none =>
      (match cb with
       | some c => { s with calls := s.calls ++ [(c, CallArg.got none)] }
       | none => s,
       none)

/-- `TransactionStore.prototype.isKnown`: `!!this.txIndex[hash]` — true for
a verifying queue (a truthy array) and for an accepted transaction. -/
def isKnown (s : TxStore) (h : Nat) : Bool :=
  (alookup s.txIndex h).isSome

/-- Outcome of the asynchronous `tx.verify`. -/
inductive VOut where
  | ok
  | missingSource (h : Nat)
  | failed
deriving DecidableEq

/-- Whether the store holds an accepted transaction under `h`. -/
def isAcceptedIn (s : TxStore) (h : Nat) : Bool :=
  match alookup s.txIndex h with
  | some (.accepted _) => true
  | _ => false

/-- Modelled from the spec: `Transaction.verify` (in `transaction.js`,
absent from the given sources) resolves every input outpoint against other
accepted mempool entries and against Storage — here a set of hash keys —
and the first input whose source transaction is found in neither yields a
`MissingSourceError` carrying that hash; otherwise per-input script
verification runs, modelled by the oracle `tx.scriptOk`. -/
def verifyOutcome (storage : List Nat) (s : TxStore) (tx : Tx) : VOut :=
  match tx.ins.find? (fun i =>
      !(storage.contains i.prevHash || isAcceptedIn s i.prevHash)) with
  | some i => .missingSource i.prevHash
  | none => if tx.scriptOk then .ok else .failed

/-- Fire a queue of waiters with an error, as the source's
`callbackQueue.forEach` of `cb(err, tx)` does: real callbacks are logged
with the error, the removal closure returns without doing anything when
handed an error. -/
def fireErr (arg : CallArg) (s : TxStore) : List Waiter → TxStore
  | [] => s
  | .cbW (some c) :: rest =>
      fireErr arg { s with calls := s.calls ++ [(c, arg)] } rest
  | .cbW none :: rest => fireErr arg s rest
  | .removeW :: rest => fireErr arg s rest

/-- Fire a queue of waiters after a successful verification of the
transaction stored under `h`: real callbacks are logged with
`(null, tx)`; the removal closure calls `remove(hash)` right away. -/
def fireSuccess (h : Nat) (tx : Tx) (s : TxStore) : List Waiter → TxStore
  | [] => s
  | .cbW (some c) :: rest =>
      fireSuccess h tx { s with calls := s.calls ++ [(c, .success tx)] } rest
  | .cbW none :: rest => fireSuccess h tx s rest
  | .removeW :: rest => fireSuccess h tx (removeStore s h) rest

/-- The live-accounting fan-out at the end of a successful verification:
for every affected account, append the hash to that account's index and
emit the per-address `txNotify`. -/
def notifyAccounts (h : Nat) (tx : Tx) (s : TxStore) : List Nat → TxStore
  | [] => s
  | a :: rest =>
      let byAcc :=
        match alookup s.txIndexByAcc a with
        | none => aset s.txIndexByAcc a [h]
        | some l => aset s.txIndexByAcc a (l ++ [h])
      let evs := s.events ++ [Ev.txNotifyAddr a tx]
      notifyAccounts h tx { s with txIndexByAcc := byAcc, events := evs } rest

mutual

/-- `TransactionStore.prototype.add`.  The fuel argument bounds the orphan
re-feed recursion; with fuel exhausted the call is a no-op returning
`false` (never reached at the fuel used in the theorems below).  A
verifying entry gets the callback (when it is a function) appended to its
queue; an accepted entry invokes the callback at once with the submitted
transaction; otherwise a coinbase or non-standard transaction is rejected
synchronously, and any other transaction is marked verifying with a fresh
queue holding the callback, after which the verification completion
handler runs (`verifyCallback`).  The returned Boolean is whether the
transaction was new. -/
def add : Nat → List Nat → TxStore → Tx → Option Nat → TxStore × Bool
  | 0, _, s, _, _ => (s, false)
  | n + 1, storage, s, tx, cb =>
      let h := tx.hash
      match alookup s.txIndex h with
      | some (.verifying q) =>
          (match cb with
           | some c =>
               let entry := PoolEntry.verifying (q ++ [Waiter.cbW (some c)])
               { s with txIndex := aset s.txIndex h entry }
           | none => s,
           false)
      | some (.accepted _) =>
          (match cb with
           | some c => { s with calls := s.calls ++ [(c, CallArg.success tx)] }
           | none => s,
           false)
      | none =>
          if tx.isCoinBase then
            let msg := "Coinbase transactions are only allowed as part of a block"
            ((match cb with
              | some c => { s with calls := s.calls ++ [(c, CallArg.syncErr msg)] }
              | none => s),
             true)
          else if !tx.standard then
            let msg := "Non-standard transactions are currently not accepted"
            ((match cb with
              | some c => { s with calls := s.calls ++ [(c, CallArg.syncErr msg)] }
              | none => s),
             true)
          else
            let entry := PoolEntry.verifying [Waiter.cbW cb]
            let s1 := { s with txIndex := aset s.txIndex h entry }
            (verifyCallback n storage s1 tx, true)

/-- The anonymous completion callback that `add` hands to `tx.verify`.  On
a `MissingSourceError` the transaction is recorded in both orphan maps and
every waiter is told — while the verifying entry in `txIndex` is left in
place; on any other error the entry is deleted and the waiters are told;
on success the entry becomes the accepted transaction, the waiters are
told, every orphan waiting on this hash is re-fed through `add` (with the
array index, not a function, as its callback argument), the orphan-index
key is deleted, `txNotify` fires and, under live accounting, the
per-address indices and events follow. -/
def verifyCallback : Nat → List Nat → TxStore → Tx → TxStore
  | 0, _, s, _ => s
  | n + 1, storage, s, tx =>
      let h := tx.hash
      match alookup s.txIndex h with
      | some (.verifying queue) =>
          (match verifyOutcome storage s tx with
           | .missingSource m =>
               let byPrev :=
                 match alookup s.orphanTxByPrev m with
                 | none => aset s.orphanTxByPrev m [tx]
                 | some l => aset s.orphanTxByPrev m (l ++ [tx])
               let orphIdx := aset s.orphanTxIndex h tx
               let s1 := { s with orphanTxIndex := orphIdx, orphanTxByPrev := byPrev }
               fireErr (CallArg.missingSrc m tx) s1 queue
           | .failed =>
               fireErr (CallArg.failed tx) { s with txIndex := aerase s.txIndex h } queue
           | .ok =>
               let s1 := { s with txIndex := aset s.txIndex h (PoolEntry.accepted tx) }
               let s2 := fireSuccess h tx s1 queue
               let s3 :=
                 match alookup s2.orphanTxByPrev h with
                 | some orphans =>
                     let sf := feedOrphans n storage orphans s2
                     { sf with orphanTxByPrev := aerase sf.orphanTxByPrev h }
                 | none => s2
               let s4 := { s3 with events := s3.events ++ [Ev.txNotify tx] }
               if s4.liveAccounting then notifyAccounts h tx s4 tx.accounts else s4)
      | _ => s

/-- The `forEach(this.add.bind(this))` re-feed of orphans: each waiting
transaction is pushed through `add` with a numeric second argument, so no
callback is enqueued for it. -/
def feedOrphans : Nat → List Nat → List Tx → TxStore → TxStore
  | 0, _, _, s => s
  | _ + 1, _, [], s => s
  | n + 1, storage, o :: os, s =>
      feedOrphans n storage os (add n storage s o none).fst

end

/-- `TransactionStore.prototype.handleTxAdd`: remove the confirmed
transaction from the pool.  The loop over the inputs of a non-coinbase
transaction that should evict conflicting spends is empty in the source
(its body is a TODO comment), so nothing else happens. -/
def handleTxAdd (s : TxStore) (tx : Tx) : TxStore :=
  removeStore s tx.hash

/-- States of the store reachable through its public operations from a
freshly constructed store. -/
inductive Reachable : TxStore → Prop where
  | init (la : Bool) : Reachable { liveAccounting := la }
  | addStep (n : Nat) (storage : List Nat) (tx : Tx) (cb : Option Nat)
      {s : TxStore} : Reachable s → Reachable (add n storage s tx cb).fst
  | removeStep (h : Nat) {s : TxStore} :
      Reachable s → Reachable (removeStore s h)
  | getStep (h : Nat) (cb : Option Nat) {s : TxStore} :
      Reachable s → Reachable (getStore s h cb).fst
  | handleStep (tx : Tx) {s : TxStore} :
      Reachable s → Reachable (handleTxAdd s tx)

/-! ## Node state machine (`Node.prototype`) -/

/-- The node fields the state machine touches: the current state (`null`
before `start()`) and the `running` flag. -/
structure NodeSt where
  state : Option String := none
  running : Bool := false
deriving DecidableEq

/-- The literal list of states the source treats as running in
`handleStateChange`. -/
def runningStates : List String := ["netConnect", "blockDownload", "default"]

/-- `Node.prototype.handleStateChange`: sets `running` from membership of
the new state in `runningStates`; the switches on old and new state have
no effect on the fields modelled here. -/
def handleStateChange (nd : NodeSt) (newState : String) : NodeSt :=
  { nd with running := runningStates.contains newState }

/-- `Node.prototype.setState`: refuses to switch to `init` unless still
uninitialized, otherwise stores the new state and emits `stateChange`,
which `handleStateChange` receives. -/
def setState (nd : NodeSt) (newState : String) : NodeSt :=
  if newState == "init" && nd.state != none then nd
  else handleStateChange { nd with state := some newState } newState

/-! ## Claim theorems -/

/-- C1: the merkle-root validation step cannot behave as specified: for a
block over a single transaction of hash `[7]` whose stored merkle root
`[7]` equals the canonical merkle root of the transaction list,
`checkMerkleRoot` must succeed according to the claim, but the source
throws — it invokes `calcMerkleRoot` with no argument, so the transaction
list is `undefined` and reading its length raises a `TypeError` (and even
with a list, its comparison is inverted and `tree.add` does not exist). -/
theorem checkMerkleRoot_rejects_matching_root :
    canonicalMerkleRoot (fun a b => a ++ b) [[7]] = [7] ∧
    checkMerkleRoot { merkle_root := some [7] } [⟨[7]⟩] =
      Except.error ("TypeError: undefined has no length") := by
  constructor
  · simp [canonicalMerkleRoot]
  · rfl

/-- C10: `remove` on a hash with no entry in the store is a no-op: no map
changes and no `txCancel` event, global or per-address. -/
theorem remove_unknown_noop (s : TxStore) (h : Nat)
    (habs : alookup s.txIndex h = none) : removeStore s h = s := by
  simp [removeStore, habs]

/-- Witness for C10 at the freshly constructed store and hash 5. -/
theorem remove_unknown_noop_witness :
    removeStore { } 5 = ({ } : TxStore) :=
  remove_unknown_noop { } 5 rfl

/-- C7 counterexample: entering the `active` state leaves `running`
false — the source's running-state list contains the string `default`,
not `active`. -/
theorem setState_active_not_running :
    (setState { state := some ("blockDownload"), running := true } "active").running
      = false := by
  decide

/-- C7 amended: after every admitted state transition, `running` holds
exactly when the new state is `netConnect`, `blockDownload` or the string
`default` that the source actually lists; in particular entering `active`
resets `running` to false. -/
theorem setState_running_iff (nd : NodeSt) (st : String)
    (hadm : ¬(st = "init" ∧ nd.state ≠ none)) :
    (setState nd st).running = runningStates.contains st := by
  have hcond : (st == "init" && nd.state != none) = false := by
    by_cases h1 : st = "init"
    · subst h1
      have h2 : nd.state = none := by
        by_contra h3
        exact hadm ⟨rfl, h3⟩
      simp [h2]
    · simp [h1]
  simp [setState, hcond, handleStateChange]

/-- Witness for C7's amended statement at the transition into
`netConnect`. -/
theorem setState_running_iff_witness :
    (setState { } "netConnect").running = runningStates.contains ("netConnect") :=
  setState_running_iff { } "netConnect" (by simp)

/-- The numeric value encoded by the target buffer produced for `bits`. -/
theorem beNat_decodeDiffBits (bits : Nat)
    (ht : decodeDiffBitsNat bits < 2 ^ 256) :
    beNat (decodeDiffBits bits) = decodeDiffBitsNat bits := by
  have h : (256 : Nat) ^ 32 = 2 ^ 256 := by norm_num
  rw [decodeDiffBits, beNat_bytesBE, h]
  exact Nat.mod_eq_of_lt ht

/-- C5: `checkProofOfWork` succeeds exactly when the block hash, read as
an unsigned 256-bit little-endian integer, is at most the decoded
difficulty target, and it raises the difficulty error when the bound is
exceeded. -/
theorem checkProofOfWork_iff (b : Block)
    (hlen : b.hash.length = 32)
    (hbytes : ∀ x ∈ b.hash, x < 256)
    (htarget : decodeDiffBitsNat b.bits < 2 ^ 256) :
    ((checkProofOfWork b).fst = Except.ok true ↔
        leNat b.hash ≤ decodeDiffBitsNat b.bits) ∧
    (decodeDiffBitsNat b.bits < leNat b.hash →
        (checkProofOfWork b).fst = Except.error ("Difficulty target not met")) := by
  have hkey : bufCompare b.hash.reverse (decodeDiffBits b.bits) = .gt ↔
      decodeDiffBitsNat b.bits < leNat b.hash := by
    have h1 : (b.hash.reverse).length = (decodeDiffBits b.bits).length := by
      simp [hlen, decodeDiffBits, bytesBE_length]
    have h2 : ∀ x ∈ b.hash.reverse, x < 256 := by
      intro x hx
      exact hbytes x (List.mem_reverse.mp hx)
    have h3 := bufCompare_gt_iff _ _ h1 h2 (bytesBE_bytes 32 _)
    rw [h3, beNat_reverse, beNat_decodeDiffBits b.bits htarget]
  by_cases hc : bufCompare b.hash.reverse (decodeDiffBits b.bits) = .gt
  · have hgt := hkey.mp hc
    constructor
    · constructor
      · intro h
        simp [checkProofOfWork, hc] at h
      · intro h
        omega
    · intro _
      simp [checkProofOfWork, hc]
  · have hle : leNat b.hash ≤ decodeDiffBitsNat b.bits := by
      by_contra hlt
      exact hc (hkey.mpr (by omega))
    constructor
    · simp [checkProofOfWork, hc, hle]
    · intro h
      omega

/-- Witness for C5 at the all-zero 32-byte hash and compact bits
`0x203fffff`. -/
theorem checkProofOfWork_iff_witness :
    ((checkProofOfWork { hash := List.replicate 32 0, bits := 541065215 }).fst
        = Except.ok true ↔
      leNat (List.replicate 32 0) ≤ decodeDiffBitsNat 541065215) ∧
    (decodeDiffBitsNat 541065215 < leNat (List.replicate 32 0) →
      (checkProofOfWork { hash := List.replicate 32 0, bits := 541065215 }).fst
        = Except.error ("Difficulty target not met")) :=
  checkProofOfWork_iff { hash := List.replicate 32 0, bits := 541065215 }
    (by decide) (by decide) (by decide)

/-- C9: whenever `checkProofOfWork` returns successfully, the block is
byte-for-byte what it was: the in-place reversal of the hash is undone on
the success path and no other field changes. -/
theorem checkProofOfWork_preserves_block (b : Block)
    (h : (checkProofOfWork b).fst = Except.ok true) :
    (checkProofOfWork b).snd = b := by
  by_cases hc : bufCompare b.hash.reverse (decodeDiffBits b.bits) = .gt
  · simp [checkProofOfWork, hc] at h
  · simp only [checkProofOfWork, if_neg hc]
    cases b
    simp [List.reverse_reverse]

/-- Witness for C9 at the same passing block as the C5 witness. -/
theorem checkProofOfWork_preserves_block_witness :
    (checkProofOfWork { hash := List.replicate 32 0, bits := 541065215 }).snd
      = { hash := List.replicate 32 0, bits := 541065215 } :=
  checkProofOfWork_preserves_block
    { hash := List.replicate 32 0, bits := 541065215 } (by rfl)

/-- C4: deduplication of `add` calls.  Against a verifying entry the
callback only joins that entry's waiter queue and `add` returns `false`,
launching nothing; against an accepted entry the callback is invoked at
once with the stored transaction and `add` returns `false`.  Two adds of
the same hash hence share the single verification the first one
launched. -/
theorem add_dedup (n : Nat) (storage : List Nat) (s : TxStore) (tx : Tx)
    (c : Nat) (q : List Waiter) :
    (alookup s.txIndex tx.hash = some (PoolEntry.verifying q) →
      add (n + 1) storage s tx (some c) =
        ({ s with txIndex := aset s.txIndex tx.hash (PoolEntry.verifying (q ++ [Waiter.cbW (some c)])) }, false)) ∧
    (alookup s.txIndex tx.hash = some (PoolEntry.accepted tx) →
      add (n + 1) storage s tx (some c) =
        ({ s with calls := s.calls ++ [(c, CallArg.success tx)] }, false)) := by
  constructor
  · intro h
    simp [add, h]
  · intro h
    simp [add, h]

/-- A small transaction used by the C4 witness. -/
def txDedup : Tx := { hash := 5, ins := [⟨3, 0⟩] }

/-- A store with a verifying entry under hash 5, for the C4 witness. -/
def storeVer : TxStore := { txIndex := [(5, PoolEntry.verifying [])] }

/-- A store with an accepted entry under hash 5, for the C4 witness. -/
def storeAcc : TxStore := { txIndex := [(5, PoolEntry.accepted txDedup)] }

/-- Witness for C4: both branches at hash 5, callback 9. -/
theorem add_dedup_witness :
    (add 1 [] storeVer txDedup (some 9) =
      ({ storeVer with txIndex := [(5, PoolEntry.verifying [Waiter.cbW (some 9)])] }, false)) ∧
    (add 1 [] storeAcc txDedup (some 9) =
      ({ storeAcc with calls := [(9, CallArg.success txDedup)] }, false)) :=
  ⟨(add_dedup 0 [] storeVer txDedup 9 []).1 (by decide),
   (add_dedup 0 [] storeAcc txDedup 9 []).2 (by decide)⟩

/-- C8: a fresh `add` of a coinbase or non-standard transaction is
rejected synchronously: the callback is invoked at once with the error,
`add` returns `true`, nothing but the invocation log changes — in
particular no verifying entry is created — and the hash remains
unknown. -/
theorem add_sync_reject (n : Nat) (storage : List Nat) (s : TxStore) (tx : Tx)
    (c : Nat)
    (habs : alookup s.txIndex tx.hash = none)
    (hbad : tx.isCoinBase = true ∨ tx.standard = false) :
    add (n + 1) storage s tx (some c) =
      ({ s with calls := s.calls ++
          [(c, CallArg.syncErr
              (if tx.isCoinBase then
                ("Coinbase transactions are only allowed as part of a block")
               else ("Non-standard transactions are currently not accepted")))] },
       true) ∧
    isKnown (add (n + 1) storage s tx (some c)).fst tx.hash = false := by
  rcases hbad with hcb | hns
  · constructor
    · simp [add, habs, hcb]
    · simp [add, habs, hcb, isKnown]
  · by_cases hcb : tx.isCoinBase
    · constructor
      · simp [add, habs, hcb]
      · simp [add, habs, hcb, isKnown]
    · constructor
      · simp [add, habs, hcb, hns]
      · simp [add, habs, hcb, hns, isKnown]

/-- Witness for C8 at a coinbase transaction over an empty store. -/
theorem add_sync_reject_witness :
    (add 1 [] { } { hash := 5, ins := [⟨0, 0⟩] } (some 9) =
      ({ calls :=
          [(9, CallArg.syncErr
              (if Tx.isCoinBase { hash := 5, ins := [⟨0, 0⟩] } then
                ("Coinbase transactions are only allowed as part of a block")
               else ("Non-standard transactions are currently not accepted")))] },
       true)) ∧
    isKnown (add 1 [] { } { hash := 5, ins := [⟨0, 0⟩] } (some 9)).fst 5 = false :=
  add_sync_reject 0 [] { } { hash := 5, ins := [⟨0, 0⟩] } 9 (by decide)
    (Or.inl (by decide))

/-- The parent transaction of the orphan-promotion scenario (C2): it
spends an output of transaction 100, which Storage knows, so it verifies
successfully once submitted. -/
def parentTx : Tx := { hash := 1, ins := [⟨100, 0⟩] }

/-- The child transaction of the orphan-promotion scenario (C2): it
spends output 0 of the parent, which is unknown when the child is
submitted. -/
def childTx : Tx := { hash := 2, ins := [⟨1, 0⟩] }

/-- The store after submitting the child — which orphans on the missing
parent — and then the parent against a Storage knowing transaction
100. -/
def promoFinal : TxStore :=
  (add 5 [100] (add 5 [100] { } childTx (some 0)).fst parentTx (some 1)).fst

/-- C2: orphan promotion fails in the source.  The missing-source branch
records the child in both orphan maps but leaves its verifying entry in
`txIndex`; when the parent is later accepted the automatic re-feed of the
child therefore stops at the is-being-verified branch, so the child never
reaches the accepted state (it stays a stale verifying entry and an
orphan), and only the parent's `txNotify` is emitted. -/
theorem orphan_promotion_fails :
    alookup promoFinal.txIndex 2 = some (PoolEntry.verifying [Waiter.cbW (some 0)]) ∧
    alookup promoFinal.orphanTxIndex 2 = some childTx ∧
    alookup promoFinal.txIndex 1 = some (PoolEntry.accepted parentTx) ∧
    promoFinal.events = [Ev.txNotify parentTx] ∧
    promoFinal.calls =
      [(0, CallArg.missingSrc 1 childTx), (1, CallArg.success parentTx)] := by
  decide

/-- A mempool transaction spending outpoint `(10, 0)`, conflicting with
the confirmed transaction of the C3 scenario. -/
def conflictTx : Tx := { hash := 2, ins := [⟨10, 0⟩] }

/-- The confirmed (in-block) transaction of the C3 scenario: it is not a
coinbase and spends the same outpoint `(10, 0)`. -/
def confirmedTx : Tx := { hash := 3, ins := [⟨10, 0⟩] }

/-- A store holding both the conflicting mempool transaction and the
confirmed transaction as accepted entries. -/
def storeConflict : TxStore :=
  { txIndex := [(2, PoolEntry.accepted conflictTx), (3, PoolEntry.accepted confirmedTx)] }

/-- C3: `handleTxAdd` removes the confirmed transaction's own hash from
the pool, but performs no conflict eviction — the loop over the inputs is
an unimplemented TODO: the mempool transaction spending the same outpoint
survives as an accepted entry and the only `txCancel` emitted is the one
for the confirmed transaction itself. -/
theorem handleTxAdd_no_conflict_eviction :
    alookup (handleTxAdd storeConflict confirmedTx).txIndex 3 = none ∧
    alookup (handleTxAdd storeConflict confirmedTx).txIndex 2 =
      some (PoolEntry.accepted conflictTx) ∧
    (handleTxAdd storeConflict confirmedTx).events = [Ev.txCancel confirmedTx 3] := by
  decide

/-! ## The stale-orphan invariant behind `isKnown` -/

/-- Every orphan recorded in `orphanTxIndex` still has its (stale)
verifying entry in `txIndex`: the missing-source branch never deletes the
entry, and no later operation can, because the stale entry blocks every
re-verification and `remove` only defers on a verifying entry. -/
def OrphanStale (s : TxStore) : Prop :=
  ∀ h, (alookup s.orphanTxIndex h).isSome →
    ∃ q, alookup s.txIndex h = some (PoolEntry.verifying q)

theorem orphanStale_aset_verifying (s : TxStore) (h : Nat) (q : List Waiter)
    (hov : OrphanStale s) :
    OrphanStale { s with txIndex := aset s.txIndex h (PoolEntry.verifying q) } := by
  intro h' ho
  by_cases hh : h' = h
  · subst hh
    exact ⟨q, alookup_aset_self _ _ _⟩
  · obtain ⟨q', hq'⟩ := hov h' ho
    refine ⟨q', ?_⟩
    rw [show ({ s with txIndex := aset s.txIndex h (PoolEntry.verifying q) } : TxStore).txIndex = aset s.txIndex h (PoolEntry.verifying q) from rfl]
    rw [alookup_aset_ne _ _ _ _ hh]
    exact hq'

theorem orphanStale_aerase (s : TxStore) (h : Nat)
    (hov : OrphanStale s) (hno : alookup s.orphanTxIndex h = none) :
    OrphanStale { s with txIndex := aerase s.txIndex h } := by
  intro h' ho
  by_cases hh : h' = h
  · have ho' : (alookup s.orphanTxIndex h').isSome = true := ho
    rw [hh, hno] at ho'
    simp at ho'
  · obtain ⟨q', hq'⟩ := hov h' ho
    refine ⟨q', ?_⟩
    rw [show ({ s with txIndex := aerase s.txIndex h } : TxStore).txIndex = aerase s.txIndex h from rfl]
    rw [alookup_aerase_ne _ _ _ hh]
    exact hq'

theorem orphanStale_aset_accepted (s : TxStore) (h : Nat) (tx : Tx)
    (hov : OrphanStale s) (hno : alookup s.orphanTxIndex h = none) :
    OrphanStale { s with txIndex := aset s.txIndex h (PoolEntry.accepted tx) } := by
  intro h' ho
  by_cases hh : h' = h
  · have ho' : (alookup s.orphanTxIndex h').isSome = true := ho
    rw [hh, hno] at ho'
    simp at ho'
  · obtain ⟨q', hq'⟩ := hov h' ho
    refine ⟨q', ?_⟩
    rw [show ({ s with txIndex := aset s.txIndex h (PoolEntry.accepted tx) } : TxStore).txIndex = aset s.txIndex h (PoolEntry.accepted tx) from rfl]
    rw [alookup_aset_ne _ _ _ _ hh]
    exact hq'

theorem orphanStale_aset_orphanIdx (s : TxStore) (h : Nat) (tx : Tx)
    (q : List Waiter) (hov : OrphanStale s)
    (hver : alookup s.txIndex h = some (PoolEntry.verifying q)) :
    OrphanStale { s with orphanTxIndex := aset s.orphanTxIndex h tx } := by
  intro h' ho
  by_cases hh : h' = h
  · subst hh
    exact ⟨q, hver⟩
  · rw [show ({ s with orphanTxIndex := aset s.orphanTxIndex h tx } : TxStore).orphanTxIndex = aset s.orphanTxIndex h tx from rfl] at ho
    rw [alookup_aset_ne _ _ _ _ hh] at ho
    exact hov h' ho

/-- If the entry under `h` is accepted, `h` cannot be an orphan. -/
theorem orphanStale_accepted_not_orphan (s : TxStore) (h : Nat) (tx : Tx)
    (hov : OrphanStale s) (hl : alookup s.txIndex h = some (PoolEntry.accepted tx)) :
    alookup s.orphanTxIndex h = none := by
  cases ho : alookup s.orphanTxIndex h with
  | none => rfl
  | some t =>
      obtain ⟨q, hq⟩ := hov h (by rw [ho]; simp)
      rw [hl] at hq
      simp at hq

/-- If there is no entry under `h`, `h` cannot be an orphan. -/
theorem orphanStale_absent_not_orphan (s : TxStore) (h : Nat)
    (hov : OrphanStale s) (hl : alookup s.txIndex h = none) :
    alookup s.orphanTxIndex h = none := by
  cases ho : alookup s.orphanTxIndex h with
  | none => rfl
  | some t =>
      obtain ⟨q, hq⟩ := hov h (by rw [ho]; simp)
      rw [hl] at hq
      simp at hq

theorem removeStore_orphanStale (s : TxStore) (h : Nat)
    (hov : OrphanStale s) : OrphanStale (removeStore s h) := by
  cases hl : alookup s.txIndex h with
  | none => simpa [removeStore, hl] using hov
  | some entry =>
      cases entry with
      | verifying q =>
          simp only [removeStore, hl]
          exact orphanStale_aset_verifying s h _ hov
      | accepted tx =>
          have hno := orphanStale_accepted_not_orphan s h tx hov hl
          have base := orphanStale_aerase s h hov hno
          simp only [removeStore, hl]
          split
          · exact base
          · exact base

theorem getStore_orphanStale (s : TxStore) (h : Nat) (cb : Option Nat)
    (hov : OrphanStale s) : OrphanStale (getStore s h cb).fst := by
  cases hl : alookup s.txIndex h with
  | none =>
      cases cb with
      | some c => simpa [getStore, hl] using hov
      | none => simpa [getStore, hl] using hov
  | some entry =>
      cases entry with
      | verifying q =>
          cases cb with
          | some c =>
              simp only [getStore, hl]
              exact orphanStale_aset_verifying s h _ hov
          | none => simpa [getStore, hl] using hov
      | accepted tx =>
          cases cb with
          | some c => simpa [getStore, hl] using hov
          | none => simpa [getStore, hl] using hov

theorem fireErr_orphanStale (arg : CallArg) (ws : List Waiter) (s : TxStore)
    (hov : OrphanStale s) : OrphanStale (fireErr arg s ws) := by
  induction ws generalizing s with
  | nil => exact hov
  | cons w rest ih =>
      cases w with
      | cbW c =>
          cases c with
          | some c => exact ih _ hov
          | none => exact ih _ hov
      | removeW => exact ih _ hov

theorem fireSuccess_orphanStale (h : Nat) (tx : Tx) (ws : List Waiter)
    (s : TxStore) (hov : OrphanStale s) :
    OrphanStale (fireSuccess h tx s ws) := by
  induction ws generalizing s with
  | nil => exact hov
  | cons w rest ih =>
      cases w with
      | cbW c =>
          cases c with
          | some c => exact ih _ hov
          | none => exact ih _ hov
      | removeW => exact ih _ (removeStore_orphanStale s h hov)

theorem notifyAccounts_orphanStale (h : Nat) (tx : Tx) (acc : List Nat)
    (s : TxStore) (hov : OrphanStale s) :
    OrphanStale (notifyAccounts h tx s acc) := by
  induction acc generalizing s with
  | nil => exact hov
  | cons a rest ih => exact ih _ hov

/-- The stale-orphan invariant is preserved by `add` at any fuel, by the
verification completion handler — for a transaction that is not yet an
orphan, which is the case whenever `add` launches one — and by the orphan
re-feed. -/
theorem add_triple_orphanStale (n : Nat) :
    (∀ storage s tx cb, OrphanStale s → OrphanStale (add n storage s tx cb).fst) ∧
    (∀ storage s tx, OrphanStale s →
      alookup s.orphanTxIndex tx.hash = none →
      OrphanStale (verifyCallback n storage s tx)) ∧
    (∀ storage os s, OrphanStale s → OrphanStale (feedOrphans n storage os s)) := by
  induction n with
  | zero =>
      refine ⟨?_, ?_, ?_⟩
      · intro storage s tx cb hov
        simpa [add] using hov
      · intro storage s tx hov _
        simpa [verifyCallback] using hov
      · intro storage os s hov
        simpa [feedOrphans] using hov
  | succ n ih =>
      obtain ⟨ihAdd, ihVC, ihFeed⟩ := ih
      refine ⟨?_, ?_, ?_⟩
      · intro storage s tx cb hov
        cases hl : alookup s.txIndex tx.hash with
        | some entry =>
            cases entry with
            | verifying q =>
                cases cb with
                | some c =>
                    simp only [add, hl]
                    exact orphanStale_aset_verifying s tx.hash _ hov
                | none => simpa [add, hl] using hov
            | accepted t =>
                cases cb with
                | some c => simpa [add, hl] using hov
                | none => simpa [add, hl] using hov
        | none =>
            have hno := orphanStale_absent_not_orphan s tx.hash hov hl
            by_cases hcb : tx.isCoinBase = true
            · cases cb with
              | some c => simpa [add, hl, hcb] using hov
              | none => simpa [add, hl, hcb] using hov
            · rw [Bool.not_eq_true] at hcb
              by_cases hstd : tx.standard = true
              · simp only [add, hl, hcb, hstd, Bool.false_eq_true, if_false,
                  Bool.not_true, Bool.false_eq_true, if_false]
                have hov1 := orphanStale_aset_verifying s tx.hash [Waiter.cbW cb] hov
                exact ihVC storage _ tx hov1 hno
              · rw [Bool.not_eq_true] at hstd
                cases cb with
                | some c => simpa [add, hl, hcb, hstd] using hov
                | none => simpa [add, hl, hcb, hstd] using hov
      · intro storage s tx hov hno
        cases hl : alookup s.txIndex tx.hash with
        | none => simpa [verifyCallback, hl] using hov
        | some entry =>
            cases entry with
            | accepted t => simpa [verifyCallback, hl] using hov
            | verifying queue =>
                cases hv : verifyOutcome storage s tx with
                | missingSource m =>
                    simp only [verifyCallback, hl, hv]
                    apply fireErr_orphanStale
                    exact orphanStale_aset_orphanIdx s tx.hash tx queue hov hl
                | failed =>
                    simp only [verifyCallback, hl, hv]
                    apply fireErr_orphanStale
                    exact orphanStale_aerase s tx.hash hov hno
                | ok =>
                    simp only [verifyCallback, hl, hv]
                    have hov1 := orphanStale_aset_accepted s tx.hash tx hov hno
                    have hov2 := fireSuccess_orphanStale tx.hash tx queue _ hov1
                    cases hbp : alookup (fireSuccess tx.hash tx { s with txIndex := aset s.txIndex tx.hash (PoolEntry.accepted tx) } queue).orphanTxByPrev tx.hash with
                    | some orphans =>
                        have hov3 := ihFeed storage orphans _ hov2
                        simp only [hbp]
                        split
                        · exact notifyAccounts_orphanStale _ _ _ _ hov3
                        · exact hov3
                    | none =>
                        simp only [hbp]
                        split
                        · exact notifyAccounts_orphanStale _ _ _ _ hov2
                        · exact hov2
      · intro storage os s hov
        cases os with
        | nil => simpa [feedOrphans] using hov
        | cons o rest =>
            simp only [feedOrphans]
            exact ihFeed storage rest _ (ihAdd storage s o none hov)

/-- Every reachable store satisfies the stale-orphan invariant. -/
theorem reachable_orphanStale {s : TxStore} (hr : Reachable s) :
    OrphanStale s := by
  induction hr with
  | init la =>
      intro h ho
      simp [alookup] at ho
  | addStep n storage tx cb hr ih =>
      exact (add_triple_orphanStale n).1 storage _ tx cb ih
  | removeStep h hr ih => exact removeStore_orphanStale _ h ih
  | getStep h cb hr ih => exact getStore_orphanStale _ h cb ih
  | handleStep tx hr ih => exact removeStore_orphanStale _ tx.hash ih

/-- The entry under `h` is a verifying queue. -/
def entryVerifying (s : TxStore) (h : Nat) : Bool :=
  match alookup s.txIndex h with
  | some (PoolEntry.verifying _) => true
  | _ => false

/-- The entry under `h` is an accepted transaction. -/
def entryAccepted (s : TxStore) (h : Nat) : Bool :=
  match alookup s.txIndex h with
  | some (PoolEntry.accepted _) => true
  | _ => false

/-- The transaction `h` is recorded as an orphan. -/
def entryOrphan (s : TxStore) (h : Nat) : Bool :=
  (alookup s.orphanTxIndex h).isSome

/-- C6: in every reachable store, `isKnown` answers true for a hash in
any of the three entry states — verifying, accepted, or orphan (an
orphan's stale verifying entry keeps it in `txIndex`) — and false for a
hash the store has never seen, which therefore has no `txIndex` entry. -/
theorem isKnown_states {s : TxStore} (hr : Reachable s) (h : Nat) :
    ((entryVerifying s h || entryAccepted s h || entryOrphan s h) = true →
      isKnown s h = true) ∧
    (alookup s.txIndex h = none → isKnown s h = false) := by
  constructor
  · intro hcond
    cases hl : alookup s.txIndex h with
    | some e => simp [isKnown, hl]
    | none =>
        exfalso
        have hcond' : (entryVerifying s h = true ∨ entryAccepted s h = true) ∨
            entryOrphan s h = true := by
          simpa using hcond
        rcases hcond' with (hv | ha) | ho
        · rw [entryVerifying, hl] at hv
          simp at hv
        · rw [entryAccepted, hl] at ha
          simp at ha
        · obtain ⟨q, hq⟩ := reachable_orphanStale hr h
            (by simpa [entryOrphan] using ho)
          rw [hl] at hq
          simp at hq
  · intro hnone
    simp [isKnown, hnone]

/-- A transaction that orphans immediately, for the C6 witness. -/
def orphanScenTx : Tx := { hash := 7, ins := [⟨42, 0⟩] }

/-- The store after submitting `orphanScenTx` against an empty Storage:
hash 7 is an orphan with a stale verifying entry. -/
def orphanScenStore : TxStore := (add 2 [] { } orphanScenTx (some 0)).fst

/-- Witness for C6: in the reachable store holding orphan 7, the state
condition holds and `isKnown` answers true. -/
theorem isKnown_states_witness : isKnown orphanScenStore 7 = true :=
  (isKnown_states
      (Reachable.addStep 2 [] orphanScenTx (some 0) (Reachable.init false)) 7).1
    (by decide)

